import Mathlib

/-!
# Verification of the SimliGemini streaming session core

Shallow embedding of the SimliGemini repository's session core: the inbound
message demultiplexer, transcript coalescing, the tool-call responder, the
audio codec utilities (quantization, resampling, base64), the fidelity-path
playback scheduler, the collaborator-fetch phase of session start, and the
teardown sequence.  Each definition is translated from the TypeScript /
JavaScript source (`src/components/SimliLiveGemini.tsx`, the unnamed variant
files, and `public/pcm-processor.js`); JavaScript numbers are modelled as `ℚ`
and 16-bit stores by explicit truncation and reduction modulo `2 ^ 16`.
-/

/-! ## Transcript model (chatHistory and its updates)

`chatHistory` is a list of `{role, content}` records.  The assistant text
branch of `ws.onmessage` coalesces a text delta into the last entry when that
entry has the assistant role, otherwise appends a fresh assistant entry;
`handleSendText` always appends a fresh user entry. -/

inductive Role where
  | user
  | assistant
  deriving DecidableEq, Repr

structure Turn where
  role : Role
  content : String
  deriving DecidableEq, Repr

/-- The `setChatHistory` update run for one assistant text delta
(`SimliLiveGemini.tsx`, text-part branch of `ws.onmessage`): if the last
entry of the history has the assistant role, replace it by the same entry
with the delta appended to its content; otherwise append a new assistant
entry holding the delta. -/
def appendAssistantText (prev : List Turn) (newText : String) : List Turn :=
  match prev.getLast? with
  | some lastMsg =>
      if lastMsg.role = Role.assistant then
        prev.dropLast ++ [{ lastMsg with content := lastMsg.content ++ newText }]
      else
        prev ++ [⟨Role.assistant, newText⟩]
  | none => prev ++ [⟨Role.assistant, newText⟩]

/-- The `setChatHistory` update run by `handleSendText` after sending a user
text turn: the user turn is appended as a new entry, never merged. -/
def appendUserTurn (prev : List Turn) (content : String) : List Turn :=
  prev ++ [⟨Role.user, content⟩]

/-! ## Tool-call responder (toolCall branch of `ws.onmessage`, part_002)

For each entry of `response.toolCall.functionCalls` whose `name` is
`print_album_concept`, the handler pushes `{id, name, response: {result}}`
onto `functionResponses`; entries with any other name are skipped.  After the
loop, exactly one `tool_response` message bundling `functionResponses` is
sent. -/

structure FunctionCall where
  id : String
  name : String
  args : String
  deriving DecidableEq, Repr

structure FunctionResponse where
  id : String
  name : String
  result : String
  deriving DecidableEq, Repr

def printAlbumConcept : String := "print_album_concept"

/-- The `functionResponses` accumulated by the loop over
`response.toolCall.functionCalls`: one response per call named
`print_album_concept`, copying `id`, `name`, and the call arguments as the
result; calls with any other name contribute nothing. -/
def handleToolCall (calls : List FunctionCall) : List FunctionResponse :=
  (calls.filter (fun fc => fc.name == printAlbumConcept)).map
    (fun fc => ⟨fc.id, fc.name, fc.args⟩)

/-- The outbound `tool_response` acknowledgement messages produced by one
inbound message: exactly one message (bundling `handleToolCall`) when the
payload carries a `toolCall` field, none otherwise. -/
def toolCallAcks (toolCalls : Option (List FunctionCall)) :
    List (List FunctionResponse) :=
  match toolCalls with
  | some calls => [handleToolCall calls]
  | none => []

/-! ### Theorems for the transcript and the tool-call responder -/

/-- Appending one delta onto a history ending in an assistant turn extends
that turn's content in place. -/
theorem appendAssistantText_last_assistant (h : List Turn) (c d : String) :
    appendAssistantText (h ++ [⟨Role.assistant, c⟩]) d
      = h ++ [⟨Role.assistant, c ++ d⟩] := by
  simp [appendAssistantText, List.getLast?_concat, List.dropLast_concat]

/-- Appending one delta onto a history ending in a user turn opens a fresh
assistant turn and leaves the user turn untouched. -/
theorem appendAssistantText_last_user (h : List Turn) (c d : String) :
    appendAssistantText (h ++ [⟨Role.user, c⟩]) d
      = h ++ [⟨Role.user, c⟩] ++ [⟨Role.assistant, d⟩] := by
  simp [appendAssistantText, List.getLast?_concat]

theorem foldl_string_append (ds : List String) :
    ∀ a b : String,
      List.foldl (fun r s => r ++ s) (a ++ b) ds
        = a ++ List.foldl (fun r s => r ++ s) b ds := by
  induction ds with
  | nil => intro a b; rfl
  | cons d ds ih =>
      intro a b
      simp only [List.foldl_cons, String.append_assoc, ih]

theorem string_join_cons (d : String) (ds : List String) :
    String.join (d :: ds) = d ++ String.join ds := by
  show List.foldl (fun r s => r ++ s) ("" ++ d) ds
      = d ++ List.foldl (fun r s => r ++ s) "" ds
  have h1 : "" ++ d = d ++ "" := by simp
  rw [h1, foldl_string_append]

theorem foldl_appendAssistantText (h : List Turn) (ds : List String) :
    ∀ c : String,
      List.foldl appendAssistantText (h ++ [⟨Role.assistant, c⟩]) ds
        = h ++ [⟨Role.assistant, c ++ String.join ds⟩] := by
  induction ds with
  | nil => intro c; simp [String.join]
  | cons d ds ih =>
      intro c
      rw [List.foldl_cons, appendAssistantText_last_assistant, ih,
        string_join_cons, String.append_assoc]

/-- C3: a user-authored text turn is always appended as a new entry (never
merged into a previous turn), and every sequence of consecutive assistant
text deltas that follows it — with no intervening role boundary — is
coalesced into a single assistant turn whose content is the concatenation of
the deltas; in particular deltas "Hel", "lo" yield one assistant turn
containing "Hello". -/
theorem transcript_coalescing (h : List Turn) (t d : String) (ds : List String) :
    appendUserTurn h t = h ++ [⟨Role.user, t⟩] ∧
    List.foldl appendAssistantText (appendUserTurn h t) (d :: ds)
      = h ++ [⟨Role.user, t⟩] ++ [⟨Role.assistant, String.join (d :: ds)⟩] := by
  constructor
  · rfl
  · show List.foldl appendAssistantText (h ++ [⟨Role.user, t⟩]) (d :: ds) = _
    rw [List.foldl_cons, appendAssistantText_last_user]
    have := foldl_appendAssistantText (h ++ [⟨Role.user, t⟩]) ds d
    rw [this, string_join_cons]

/-- C2 counterexample: a ToolCall message carrying one function call whose
name is not `print_album_concept` produces exactly one acknowledgement, but
that acknowledgement bundles zero ToolResults instead of one per call: the
call is dropped without a result. -/
theorem toolcall_unregistered_dropped :
    (toolCallAcks (some [⟨"call-7", "search_repertoire", "args"⟩])).length = 1 ∧
    handleToolCall [⟨"call-7", "search_repertoire", "args"⟩] = [] ∧
    ([] : List FunctionResponse).length ≠ [(⟨"call-7", "search_repertoire", "args"⟩ : FunctionCall)].length := by
  refine ⟨rfl, ?_, by decide⟩
  simp [handleToolCall, printAlbumConcept]

/-- C2 (amended): every inbound ToolCall message produces exactly one
outbound acknowledgement; the acknowledgement bundles one ToolResult for
every carried call whose name is `print_album_concept`, correlated to its
call by the same id (and copying the call's name and arguments); calls with
any other name receive no result.  In particular, when every carried call is
named `print_album_concept`, the bundle has exactly one result per call with
the ids preserved in order. -/
theorem toolcall_single_ack_correlation (calls : List FunctionCall)
    (hall : ∀ fc ∈ calls, fc.name = printAlbumConcept) :
    (toolCallAcks (some calls)).length = 1 ∧
    toolCallAcks (some calls) = [handleToolCall calls] ∧
    (handleToolCall calls).map (fun r => r.id) = calls.map (fun fc => fc.id) ∧
    (handleToolCall calls).map (fun r => (r.id, r.name, r.result))
      = calls.map (fun fc => (fc.id, fc.name, fc.args)) ∧
    (handleToolCall calls).length = calls.length := by
  have hfilter : calls.filter (fun fc => fc.name == printAlbumConcept) = calls := by
    apply List.filter_eq_self.mpr
    intro fc hfc
    exact beq_iff_eq.mpr (hall fc hfc)
  refine ⟨rfl, rfl, ?_, ?_, ?_⟩
  · simp [handleToolCall, hfilter]
  · simp [handleToolCall, hfilter]
  · simp [handleToolCall, hfilter]

/-- Witness for `toolcall_single_ack_correlation` at a concrete two-call
message. -/
theorem toolcall_single_ack_correlation_witness :
    (∀ fc ∈ [(⟨"a1", "print_album_concept", "x"⟩ : FunctionCall),
             ⟨"a2", "print_album_concept", "y"⟩], fc.name = printAlbumConcept) ∧
    (toolCallAcks (some [⟨"a1", "print_album_concept", "x"⟩,
                         ⟨"a2", "print_album_concept", "y"⟩])).length = 1 ∧
    toolCallAcks (some [(⟨"a1", "print_album_concept", "x"⟩ : FunctionCall),
                        ⟨"a2", "print_album_concept", "y"⟩])
      = [handleToolCall [⟨"a1", "print_album_concept", "x"⟩,
                         ⟨"a2", "print_album_concept", "y"⟩]] ∧
    (handleToolCall [(⟨"a1", "print_album_concept", "x"⟩ : FunctionCall),
                     ⟨"a2", "print_album_concept", "y"⟩]).map (fun r => r.id)
      = ["a1", "a2"] ∧
    (handleToolCall [(⟨"a1", "print_album_concept", "x"⟩ : FunctionCall),
                     ⟨"a2", "print_album_concept", "y"⟩]).map
        (fun r => (r.id, r.name, r.result))
      = [("a1", "print_album_concept", "x"), ("a2", "print_album_concept", "y")] ∧
    (handleToolCall [(⟨"a1", "print_album_concept", "x"⟩ : FunctionCall),
                     ⟨"a2", "print_album_concept", "y"⟩]).length = 2 := by
  have hall : ∀ fc ∈ [(⟨"a1", "print_album_concept", "x"⟩ : FunctionCall),
      ⟨"a2", "print_album_concept", "y"⟩], fc.name = printAlbumConcept := by
    decide
  obtain ⟨h1, h2, h3, h4, h5⟩ := toolcall_single_ack_correlation
    [⟨"a1", "print_album_concept", "x"⟩, ⟨"a2", "print_album_concept", "y"⟩] hall
  exact ⟨hall, h1, h2, by simpa using h3, by simpa using h4, h5⟩

/-! ## Audio codec: float-to-int16 quantization

`float32ToInt16` (SimliLiveGemini.tsx) clamps each sample to `[-1, 1]` and
stores `s * 0x8000` for negative `s`, `s * 0x7fff` otherwise, into an
`Int16Array`.  `PCMProcessor.process` (pcm-processor.js) does the same but
adds a dither term `(Math.random() * 2 - 1) / 32768` after clamping and
before scaling.  A JavaScript `Int16Array` store truncates the value toward
zero and reduces it modulo `2 ^ 16` into the signed range (`ToInt16`). -/

/-- The JavaScript `ToInt16` conversion applied on every `Int16Array` store:
truncate toward zero, then wrap modulo `2 ^ 16` into `[-32768, 32767]`. -/
def toInt16Store (q : ℚ) : ℤ :=
  ((if q < 0 then ⌈q⌉ else ⌊q⌋) + 32768) % 65536 - 32768

/-- Per-sample body of `float32ToInt16`: clamp to `[-1, 1]`, then scale by
`0x8000 = 32768` when negative and `0x7fff = 32767` otherwise, stored through
`ToInt16`. -/
def float32ToInt16Sample (x : ℚ) : ℤ :=
  let s := max (-1) (min 1 x)
  toInt16Store (if s < 0 then s * 32768 else s * 32767)

/-- `float32ToInt16` itself: the per-sample conversion mapped over the block. -/
def float32ToInt16 (float32 : List ℚ) : List ℤ :=
  float32.map float32ToInt16Sample

/-- Per-sample body of `PCMProcessor.process`: clamp to `[-1, 1]`, add the
dither term `dth` (standing for `(Math.random() * 2 - 1) / 32768`, a value in
`[-1/32768, 1/32768)`), then scale asymmetrically and store through
`ToInt16`. -/
def pcmProcessSample (x dth : ℚ) : ℤ :=
  let s := max (-1) (min 1 x)
  let s2 := s + dth
  toInt16Store (if s2 < 0 then s2 * 32768 else s2 * 32767)

/-- Re-normalization back to float, matching the asymmetric scale of the
quantizer (negative values divided by 32768, non-negative by 32767). -/
def renormalize (v : ℤ) : ℚ :=
  if v < 0 then (v : ℚ) / 32768 else (v : ℚ) / 32767

/-! ### Quantizer helper lemmas -/

theorem int16_mod_id (z : ℤ) (h1 : -32768 ≤ z) (h2 : z ≤ 32767) :
    (z + 32768) % 65536 - 32768 = z := by omega

theorem toInt16Store_eq_ceil (q : ℚ) (h1 : (-32769 : ℚ) < q) (h2 : q < 0) :
    toInt16Store q = ⌈q⌉ := by
  have hc1 : (-32769 : ℤ) < ⌈q⌉ := by exact_mod_cast lt_of_lt_of_le h1 (Int.le_ceil q)
  have hc2 : ⌈q⌉ ≤ (0 : ℤ) := Int.ceil_le.mpr (by exact_mod_cast h2.le)
  unfold toInt16Store
  rw [if_pos h2]
  exact int16_mod_id _ (by omega) (by omega)

theorem toInt16Store_eq_floor (q : ℚ) (h1 : (0 : ℚ) ≤ q) (h2 : q < 32768) :
    toInt16Store q = ⌊q⌋ := by
  have hf1 : (0 : ℤ) ≤ ⌊q⌋ := Int.floor_nonneg.mpr h1
  have hf2 : ⌊q⌋ < (32768 : ℤ) := Int.floor_lt.mpr (by exact_mod_cast h2)
  unfold toInt16Store
  rw [if_neg (not_lt.mpr h1)]
  exact int16_mod_id _ (by omega) (by omega)

theorem clamp_of_mem (x : ℚ) (h1 : -1 ≤ x) (h2 : x ≤ 1) :
    max (-1) (min 1 x) = x := by
  rw [min_eq_right h2, max_eq_right h1]

theorem div_sub_bounds_floor (c y : ℚ) (v : ℤ) (hc : 0 < c)
    (h1 : c * y - 1 < (v : ℚ)) (h2 : (v : ℚ) ≤ c * y) :
    |(v : ℚ) / c - y| ≤ 1 / c := by
  rw [abs_le]
  constructor
  · have h3 : (y - 1 / c) * c ≤ (v : ℚ) := by
      have he : (y - 1 / c) * c = c * y - 1 := by
        field_simp
        ring
      rw [he]
      linarith
    have h4 : y - 1 / c ≤ (v : ℚ) / c := (le_div_iff₀ hc).mpr h3
    linarith
  · have h5 : (v : ℚ) / c ≤ y := by
      rw [div_le_iff₀ hc]
      linarith
    have h6 : (0 : ℚ) ≤ 1 / c := by positivity
    linarith

theorem div_sub_bounds_ceil (c y : ℚ) (v : ℤ) (hc : 0 < c)
    (h1 : c * y ≤ (v : ℚ)) (h2 : (v : ℚ) < c * y + 1) :
    |(v : ℚ) / c - y| ≤ 1 / c := by
  have h := div_sub_bounds_floor c (-y) (-v) hc (by push_cast; linarith)
    (by push_cast; linarith)
  have key : (((-v : ℤ) : ℚ)) / c - -y = -((v : ℚ) / c - y) := by
    push_cast
    ring
  rw [key, abs_neg] at h
  exact h

theorem clamp_idem (y : ℚ) :
    max (-1) (min 1 (max (-1) (min 1 y))) = max (-1) (min 1 y) := by
  have h1 : max (-1 : ℚ) (min 1 y) ≤ 1 := max_le (by norm_num) (min_le_left _ _)
  have h2 : (-1 : ℚ) ≤ max (-1) (min 1 y) := le_max_left _ _
  rw [min_eq_right h1, max_eq_right h2]

theorem float32ToInt16Sample_neg (x : ℚ) (h1 : -1 ≤ x) (h2 : x < 0) :
    float32ToInt16Sample x = ⌈x * 32768⌉ := by
  have hcl : max (-1) (min 1 x) = x := clamp_of_mem x h1 (by linarith)
  simp only [float32ToInt16Sample, hcl]
  rw [if_pos h2]
  exact toInt16Store_eq_ceil _ (by linarith) (by linarith)

theorem float32ToInt16Sample_nonneg (x : ℚ) (h1 : 0 ≤ x) (h2 : x ≤ 1) :
    float32ToInt16Sample x = ⌊x * 32767⌋ := by
  have hcl : max (-1) (min 1 x) = x := clamp_of_mem x (by linarith) h2
  simp only [float32ToInt16Sample, hcl]
  rw [if_neg (not_lt.mpr h1)]
  exact toInt16Store_eq_floor _ (by linarith) (by linarith)

/-- C4 counterexample: the claimed round-trip error bound fails for the
dithered worklet quantizer at the attainable corner — at sample `-1` with
dither exactly `-1/32768` (the value `(Math.random() * 2 - 1) / 32768`
takes when `Math.random()` returns `0`), the stored value wraps to `+32767`
and the re-normalized round-trip error is `2`, far above one quantization
step plus the dither amplitude. -/
theorem quantize_dither_bound_fails :
    (-1 / 32768 : ℚ) = (0 * 2 - 1) / 32768 ∧
    pcmProcessSample (-1) (-1 / 32768) = 32767 ∧
    renormalize (pcmProcessSample (-1) (-1 / 32768)) - (-1) = 2 ∧
    ¬ |renormalize (pcmProcessSample (-1) (-1 / 32768)) - (-1)|
        ≤ 1 / 32767 + 1 / 32768 := by
  have hval : pcmProcessSample (-1) (-1 / 32768) = 32767 := by
    have hm : min (1 : ℚ) (-1) = -1 := min_eq_right (by norm_num)
    have hcl : max (-1 : ℚ) (min 1 (-1)) = -1 := by rw [hm, max_self]
    simp only [pcmProcessSample, hcl]
    rw [if_pos (by norm_num : (-1 : ℚ) + -1 / 32768 < 0)]
    have hq : ((-1 : ℚ) + -1 / 32768) * 32768 = -32769 := by norm_num
    rw [hq]
    unfold toInt16Store
    rw [if_pos (by norm_num : (-32769 : ℚ) < 0)]
    have hceil : ⌈(-32769 : ℚ)⌉ = -32769 := by
      have hcast : ((-32769 : ℤ) : ℚ) = -32769 := by norm_num
      rw [← hcast, Int.ceil_intCast]
    rw [hceil]
    decide
  have hren : renormalize (pcmProcessSample (-1) (-1 / 32768)) = 1 := by
    rw [hval]
    unfold renormalize
    rw [if_neg (by norm_num : ¬ (32767 : ℤ) < 0)]
    norm_num
  refine ⟨by norm_num, hval, by rw [hren]; norm_num, by rw [hren]; norm_num⟩

/-- C4 (amended): the quantizer first clamps the sample to `[-1, 1]` and
then scales asymmetrically — negative values by 32768 (the stored value is
`⌈x * 32768⌉`, truncation toward zero), non-negative values by 32767 (the
stored value is `⌊x * 32767⌋`) — the result always lies in
`[-32768, 32767]`, and for every valid sample in `[-1, 1]` re-normalizing
the quantized value back to float has error at most one quantization step
(`1/32767`); for the dithered worklet quantizer the
step-plus-dither-amplitude bound (`1/32767 + 1/32768`) holds for every
dither value strictly above `-1/32768` — the exclusion of the single
boundary value `-1/32768`, at which wraparound makes the error 2, is
exactly what the counterexample forces. -/
theorem quantize_clamp_asym_roundtrip :
    (∀ y : ℚ, float32ToInt16Sample y = float32ToInt16Sample (max (-1) (min 1 y))) ∧
    (∀ x : ℚ, -1 ≤ x → x ≤ 1 →
      (x < 0 → float32ToInt16Sample x = ⌈x * 32768⌉) ∧
      (0 ≤ x → float32ToInt16Sample x = ⌊x * 32767⌋) ∧
      -32768 ≤ float32ToInt16Sample x ∧ float32ToInt16Sample x ≤ 32767 ∧
      |renormalize (float32ToInt16Sample x) - x| ≤ 1 / 32767) ∧
    (∀ x dth : ℚ, -1 ≤ x → x ≤ 1 → -1 / 32768 < dth → dth ≤ 1 / 32768 →
      |renormalize (pcmProcessSample x dth) - x| ≤ 1 / 32767 + 1 / 32768) := by
  refine ⟨?_, ?_, ?_⟩
  · intro y
    simp only [float32ToInt16Sample]
    rw [clamp_idem]
  · intro x h1 h2
    by_cases hx : x < 0
    · have hval := float32ToInt16Sample_neg x h1 hx
      have hle : (x * 32768 : ℚ) ≤ ((⌈x * 32768⌉ : ℤ) : ℚ) := Int.le_ceil _
      have hlt : ((⌈x * 32768⌉ : ℤ) : ℚ) < x * 32768 + 1 := Int.ceil_lt_add_one _
      have hzlo : (-32768 : ℤ) ≤ ⌈x * 32768⌉ := by
        have : (-32768 : ℚ) ≤ ((⌈x * 32768⌉ : ℤ) : ℚ) := le_trans (by linarith) hle
        exact_mod_cast this
      have hzhi : ⌈x * 32768⌉ ≤ (0 : ℤ) := Int.ceil_le.mpr (by push_cast; linarith)
      refine ⟨fun _ => hval, fun h0 => absurd h0 (not_le.mpr hx), ?_, ?_, ?_⟩
      · rw [hval]; exact hzlo
      · rw [hval]; omega
      · rw [hval]
        unfold renormalize
        by_cases hv : ⌈x * 32768⌉ < 0
        · rw [if_pos hv, abs_le]
          constructor <;> linarith
        · rw [if_neg hv]
          have hv0 : ⌈x * 32768⌉ = 0 := by omega
          rw [hv0] at hle hlt ⊢
          push_cast at hle hlt ⊢
          rw [zero_div, abs_le]
          constructor <;> linarith
    · push_neg at hx
      have hval := float32ToInt16Sample_nonneg x hx h2
      have hfle : ((⌊x * 32767⌋ : ℤ) : ℚ) ≤ x * 32767 := Int.floor_le _
      have hflt : x * 32767 - 1 < ((⌊x * 32767⌋ : ℤ) : ℚ) := Int.sub_one_lt_floor _
      have hz0 : (0 : ℤ) ≤ ⌊x * 32767⌋ := Int.floor_nonneg.mpr (by positivity)
      have hzhi : ⌊x * 32767⌋ ≤ (32767 : ℤ) := by
        have : ((⌊x * 32767⌋ : ℤ) : ℚ) ≤ 32767 := le_trans hfle (by linarith)
        exact_mod_cast this
      refine ⟨fun hneg => absurd hneg (not_lt.mpr hx), fun _ => hval, ?_, ?_, ?_⟩
      · rw [hval]; omega
      · rw [hval]; exact hzhi
      · rw [hval]
        unfold renormalize
        rw [if_neg (not_lt.mpr hz0), abs_le]
        constructor <;> linarith
  · intro x dth h1 h2 hd1 hd2
    have hcl : max (-1) (min 1 x) = x := clamp_of_mem x h1 h2
    by_cases hneg : x + dth < 0
    · have hv : pcmProcessSample x dth = ⌈(x + dth) * 32768⌉ := by
        simp only [pcmProcessSample, hcl]
        rw [if_pos hneg]
        exact toInt16Store_eq_ceil _ (by linarith) (by linarith)
      have hle : ((x + dth) * 32768 : ℚ) ≤ ((⌈(x + dth) * 32768⌉ : ℤ) : ℚ) :=
        Int.le_ceil _
      have hlt : ((⌈(x + dth) * 32768⌉ : ℤ) : ℚ) < (x + dth) * 32768 + 1 :=
        Int.ceil_lt_add_one _
      rw [hv]
      unfold renormalize
      by_cases hvz : ⌈(x + dth) * 32768⌉ < 0
      · rw [if_pos hvz, abs_le]
        constructor <;> linarith
      · rw [if_neg hvz]
        have hzhi : ⌈(x + dth) * 32768⌉ ≤ (0 : ℤ) :=
          Int.ceil_le.mpr (by push_cast; linarith)
        have hv0 : ⌈(x + dth) * 32768⌉ = 0 := by omega
        rw [hv0] at hle hlt ⊢
        push_cast at hle hlt ⊢
        rw [zero_div, abs_le]
        constructor <;> linarith
    · push_neg at hneg
      have hv : pcmProcessSample x dth = ⌊(x + dth) * 32767⌋ := by
        simp only [pcmProcessSample, hcl]
        rw [if_neg (not_lt.mpr hneg)]
        exact toInt16Store_eq_floor _ (by nlinarith) (by nlinarith)
      have hfle : ((⌊(x + dth) * 32767⌋ : ℤ) : ℚ) ≤ (x + dth) * 32767 :=
        Int.floor_le _
      have hflt : (x + dth) * 32767 - 1 < ((⌊(x + dth) * 32767⌋ : ℤ) : ℚ) :=
        Int.sub_one_lt_floor _
      have hz0 : (0 : ℤ) ≤ ⌊(x + dth) * 32767⌋ :=
        Int.floor_nonneg.mpr (by nlinarith)
      rw [hv]
      unfold renormalize
      rw [if_neg (not_lt.mpr hz0), abs_le]
      constructor <;> linarith

/-- Witness for `quantize_clamp_asym_roundtrip` at the concrete samples
`-1/2` (undithered) and `1/2` with the attainable dither `-1/65536`
(`Math.random()` returning `1/4`). -/
theorem quantize_clamp_asym_roundtrip_witness :
    ((-1 : ℚ) ≤ -1/2 ∧ (-1/2 : ℚ) ≤ 1) ∧
    float32ToInt16Sample (-1/2) = ⌈(-1/2 : ℚ) * 32768⌉ ∧
    |renormalize (float32ToInt16Sample (-1/2)) - (-1/2)| ≤ 1 / 32767 ∧
    ((-1 / 32768 : ℚ) < -1/65536 ∧ (-1/65536 : ℚ) ≤ 1 / 32768) ∧
    |renormalize (pcmProcessSample (1/2) (-1/65536)) - 1/2| ≤ 1 / 32767 + 1 / 32768 := by
  obtain ⟨hA, hB, hC⟩ := quantize_clamp_asym_roundtrip
  obtain ⟨b1, b2, b3, b4, b5⟩ := hB (-1/2) (by norm_num) (by norm_num)
  exact ⟨⟨by norm_num, by norm_num⟩, b1 (by norm_num), b5,
    ⟨by norm_num, by norm_num⟩,
    hC (1/2) (-1/65536) (by norm_num) (by norm_num) (by norm_num) (by norm_num)⟩

/-- C10: with sample `-1` and dither exactly `-1/32768` (attained when
`Math.random()` returns `0`), the scaled pre-store value is `-32769`, one
below the representable minimum, and the `Int16Array` store wraps it around
to `+32767` (full-scale positive) instead of staying at or above `-32768`:
the quantizer does overflow at this corner. -/
theorem pcm_dither_wraparound :
    pcmProcessSample (-1) (-1 / 32768) = 32767 ∧
    ((-1 : ℚ) + -1 / 32768) * 32768 = -32769 ∧
    ¬ (-32768 : ℚ) ≤ ((-1 : ℚ) + -1 / 32768) * 32768 := by
  refine ⟨?_, by norm_num, by norm_num⟩
  have hm : min (1 : ℚ) (-1) = -1 := min_eq_right (by norm_num)
  have hcl : max (-1 : ℚ) (min 1 (-1)) = -1 := by rw [hm, max_self]
  simp only [pcmProcessSample, hcl]
  rw [if_pos (by norm_num : (-1 : ℚ) + -1 / 32768 < 0)]
  have hq : ((-1 : ℚ) + -1 / 32768) * 32768 = -32769 := by norm_num
  rw [hq]
  unfold toInt16Store
  rw [if_pos (by norm_num : (-32769 : ℚ) < 0)]
  have hceil : ⌈(-32769 : ℚ)⌉ = -32769 := by
    have hcast : ((-32769 : ℤ) : ℚ) = -32769 := by norm_num
    rw [← hcast, Int.ceil_intCast]
  rw [hceil]
  decide

/-! ## Audio codec: 24 kHz → 16 kHz resampling

Two `downsampleTo16k` variants exist in the source.  Both compute
`newLength = Math.round(audioData.length / ratio)` with `ratio = 1.5`.  The
SimliLiveGemini.tsx variant linearly interpolates between the two nearest
input samples (`low = ⌊i * ratio⌋`, `high = ⌈i * ratio⌉`), falling back to a
nearest-neighbor copy of `audioData[low]` when `high` would read out of
bounds.  The part_002 variant applies a 3-tap `[0.25, 0.5, 0.25]` filter
centered on `⌊i * ratio⌋`, falling back to a nearest-neighbor copy at the
edges (`center = 0` or `center ≥ length - 1`). -/

/-- JavaScript `Math.round`: round half away from zero; for the non-negative
values appearing here this is `⌊q + 1/2⌋`. -/
def jsRound (q : ℚ) : ℤ := ⌊q + 1/2⌋

/-- `Math.round(audioData.length / 1.5)`, the output length of both
resampler variants. -/
def downsampleNewLength (len : ℕ) : ℕ := (jsRound ((len : ℚ) / (3/2))).toNat

/-- Loop body of the linear-interpolation variant at output index `i`. -/
def linearSampleAt (audioData : List ℤ) (i : ℕ) : ℤ :=
  let index : ℚ := (i : ℚ) * (3/2)
  let low := (⌊index⌋).toNat
  let high := (⌈index⌉).toNat
  let weight : ℚ := index - ⌊index⌋
  if high < audioData.length then
    toInt16Store ((audioData.getD low 0 : ℚ) * (1 - weight)
      + (audioData.getD high 0 : ℚ) * weight)
  else
    audioData.getD low 0

/-- `downsampleTo16k`, linear-interpolation variant (SimliLiveGemini.tsx). -/
def downsampleTo16kLinear (audioData : List ℤ) : List ℤ :=
  (List.range (downsampleNewLength audioData.length)).map (linearSampleAt audioData)

/-- Loop body of the 3-tap filter variant at output index `i`. -/
def threeTapSampleAt (audioData : List ℤ) (i : ℕ) : ℤ :=
  let center := (⌊(i : ℚ) * (3/2)⌋).toNat
  if 0 < center ∧ center < audioData.length - 1 then
    toInt16Store ((audioData.getD (center - 1) 0 : ℚ) * (1/4)
      + (audioData.getD center 0 : ℚ) * (1/2)
      + (audioData.getD (center + 1) 0 : ℚ) * (1/4))
  else
    audioData.getD center 0

/-- `downsampleTo16k`, 3-tap anti-aliasing variant (part_002). -/
def downsampleTo16kTap (audioData : List ℤ) : List ℤ :=
  (List.range (downsampleNewLength audioData.length)).map (threeTapSampleAt audioData)

/-! ### Resampler helper lemmas -/

theorem jsRound_len_nonneg (len : ℕ) : 0 ≤ jsRound ((len : ℚ) / (3/2)) := by
  unfold jsRound
  apply Int.floor_nonneg.mpr
  positivity

theorem downsampleNewLength_cast (len : ℕ) :
    ((downsampleNewLength len) : ℤ) = jsRound ((len : ℚ) / (3/2)) := by
  have h0 := jsRound_len_nonneg len
  unfold downsampleNewLength
  omega

/-- Every output index reads a floor index strictly inside the input. -/
theorem downsample_floor_lt (len i : ℕ) (hi : i < downsampleNewLength len) :
    ⌊(i : ℚ) * (3/2)⌋ < (len : ℤ) ∧ 0 < len := by
  have hi' : (i : ℤ) < jsRound ((len : ℚ) / (3/2)) := by
    have := downsampleNewLength_cast len
    omega
  have hfle : ((jsRound ((len : ℚ) / (3/2)) : ℤ) : ℚ) ≤ (len : ℚ) / (3/2) + 1/2 :=
    Int.floor_le _
  have hi2 : ((i : ℤ) : ℚ) + 1 ≤ ((jsRound ((len : ℚ) / (3/2)) : ℤ) : ℚ) := by
    exact_mod_cast hi'
  have hkey : (i : ℚ) * (3/2) < len := by
    push_cast at hi2
    linarith
  have hfloor : ⌊(i : ℚ) * (3/2)⌋ < (len : ℤ) := Int.floor_lt.mpr (by exact_mod_cast hkey)
  have hl0 : (0 : ℚ) < (len : ℚ) := lt_of_le_of_lt (by positivity) hkey
  exact ⟨hfloor, by exact_mod_cast hl0⟩

/-- C5 (confirmed): both resampler variants output exactly
`round(inputLength / 1.5)` samples (hence within 1 of it); for every output
index the interpolation floor index is within the input bounds and the ceil
index is at most the input length; the filter window of the 3-tap variant is
fully in bounds in its filtered branch; and both variants fall back to a
nearest-neighbor copy of the floor/center sample when the interpolation or
filter window would read out of bounds. -/
theorem downsample_length_bounds_fallback :
    (∀ l : List ℤ,
      (downsampleTo16kLinear l).length = downsampleNewLength l.length ∧
      (downsampleTo16kTap l).length = downsampleNewLength l.length ∧
      |((downsampleTo16kLinear l).length : ℤ) - jsRound ((l.length : ℚ) / (3/2))| ≤ 1 ∧
      |((downsampleTo16kTap l).length : ℤ) - jsRound ((l.length : ℚ) / (3/2))| ≤ 1) ∧
    (∀ (l : List ℤ) (i : ℕ), i < downsampleNewLength l.length →
      (⌊(i : ℚ) * (3/2)⌋).toNat < l.length ∧
      (⌈(i : ℚ) * (3/2)⌉).toNat ≤ l.length ∧
      (0 < (⌊(i : ℚ) * (3/2)⌋).toNat ∧ (⌊(i : ℚ) * (3/2)⌋).toNat < l.length - 1 →
        (⌊(i : ℚ) * (3/2)⌋).toNat - 1 < l.length ∧
        (⌊(i : ℚ) * (3/2)⌋).toNat + 1 < l.length) ∧
      (¬ (⌈(i : ℚ) * (3/2)⌉).toNat < l.length →
        linearSampleAt l i = l.getD (⌊(i : ℚ) * (3/2)⌋).toNat 0) ∧
      (¬ (0 < (⌊(i : ℚ) * (3/2)⌋).toNat ∧ (⌊(i : ℚ) * (3/2)⌋).toNat < l.length - 1) →
        threeTapSampleAt l i = l.getD (⌊(i : ℚ) * (3/2)⌋).toNat 0)) := by
  constructor
  · intro l
    have hlin : (downsampleTo16kLinear l).length = downsampleNewLength l.length := by
      simp [downsampleTo16kLinear]
    have htap : (downsampleTo16kTap l).length = downsampleNewLength l.length := by
      simp [downsampleTo16kTap]
    refine ⟨hlin, htap, ?_, ?_⟩
    · rw [hlin, downsampleNewLength_cast, sub_self]
      norm_num
    · rw [htap, downsampleNewLength_cast, sub_self]
      norm_num
  · intro l i hi
    obtain ⟨hfl, hl0⟩ := downsample_floor_lt l.length i hi
    have hceil : ⌈(i : ℚ) * (3/2)⌉ ≤ ⌊(i : ℚ) * (3/2)⌋ + 1 := Int.ceil_le_floor_add_one _
    have hf0 : 0 ≤ ⌊(i : ℚ) * (3/2)⌋ := Int.floor_nonneg.mpr (by positivity)
    refine ⟨by omega, by omega, fun hmid => by omega, ?_, ?_⟩
    · intro hoob
      simp only [linearSampleAt]
      rw [if_neg hoob]
    · intro hedge
      simp only [threeTapSampleAt]
      rw [if_neg hedge]

/-- Witness for `downsample_length_bounds_fallback` on the concrete input
`[100, 200, 300]` at output index 1. -/
theorem downsample_length_bounds_fallback_witness :
    1 < downsampleNewLength ([100, 200, 300] : List ℤ).length ∧
    (⌊((1 : ℕ) : ℚ) * (3/2)⌋).toNat < ([100, 200, 300] : List ℤ).length ∧
    (downsampleTo16kLinear ([100, 200, 300] : List ℤ)).length
      = downsampleNewLength ([100, 200, 300] : List ℤ).length := by
  have hlen3 : ([100, 200, 300] : List ℤ).length = 3 := by norm_num
  have hval : downsampleNewLength ([100, 200, 300] : List ℤ).length = 2 := by
    rw [hlen3]
    norm_num [downsampleNewLength, jsRound]
    rfl
  have h1 : 1 < downsampleNewLength ([100, 200, 300] : List ℤ).length := by omega
  obtain ⟨hA, hB⟩ := downsample_length_bounds_fallback
  obtain ⟨b1, -⟩ := hB [100, 200, 300] 1 h1
  exact ⟨h1, b1, (hA [100, 200, 300]).1⟩

/-! ## Fidelity-consumer playback scheduler (`play24kAudio`, part_002)

State: `nextStartTimeRef` plus whether the playback context exists yet.  On
first arrival the context is created and `nextStartTime` is initialized to
`currentTime + LATENCY_COMPENSATION`; every arriving frame is scheduled at
`startTime = max(currentTime + LATENCY_COMPENSATION, nextStartTime)` and
`nextStartTime` advances to `startTime + frameDuration`. -/

def LATENCY_COMPENSATION : ℚ := 22/100

structure SchedState where
  initialized : Bool
  nextStartTime : ℚ
  deriving DecidableEq, Repr

/-- One `play24kAudio` call at clock time `now` for a frame of duration
`dur`: returns the scheduled start time and the updated state. -/
def play24kAudio (st : SchedState) (now dur : ℚ) : ℚ × SchedState :=
  let ns0 := if st.initialized then st.nextStartTime else now + LATENCY_COMPENSATION
  let startTime := max (now + LATENCY_COMPENSATION) ns0
  (startTime, ⟨true, startTime + dur⟩)

def initSched : SchedState := ⟨false, 0⟩

/-- Run the scheduler over a list of (arrival time, duration) pairs,
collecting the scheduled start times. -/
def runSched : SchedState → List (ℚ × ℚ) → List ℚ
  | _, [] => []
  | st, (t, d) :: rest =>
      (play24kAudio st t d).1 :: runSched (play24kAudio st t d).2 rest

/-- The scheduler after `n + 1` frames of fixed duration `d` arriving at
times `t 0, t 1, …`: start time of frame `n` and resulting state. -/
def schedRun (t : ℕ → ℚ) (d : ℚ) : ℕ → ℚ × SchedState
  | 0 => play24kAudio initSched (t 0) d
  | n + 1 => play24kAudio (schedRun t d n).2 (t (n + 1)) d

/-! ### Scheduler theorems -/

theorem schedRun_closed (t : ℕ → ℚ) (d : ℚ) (ht : ∀ n : ℕ, t n ≤ t 0 + n * d) :
    ∀ n : ℕ,
      (schedRun t d n).1 = t 0 + LATENCY_COMPENSATION + n * d ∧
      (schedRun t d n).2
        = ⟨true, t 0 + LATENCY_COMPENSATION + (n + 1 : ℕ) * d⟩ := by
  intro n
  induction n with
  | zero =>
      simp only [schedRun, play24kAudio, initSched, Bool.false_eq_true,
        if_false, max_self]
      constructor
      · push_cast
        ring
      · refine congrArg (SchedState.mk true) ?_
        push_cast
        ring
  | succ n ih =>
      obtain ⟨ih1, ih2⟩ := ih
      have harr : t (n + 1) + LATENCY_COMPENSATION
          ≤ t 0 + LATENCY_COMPENSATION + (n + 1 : ℕ) * d := by
        have h := ht (n + 1)
        push_cast at h ⊢
        linarith
      simp only [schedRun, ih2, play24kAudio, if_true, max_eq_right harr]
      constructor
      · push_cast
        try ring
      · refine congrArg (SchedState.mk true) ?_
        push_cast
        try ring

/-- C1 counterexample (to the claim as stated): frames of duration 1 with
frame 1 arriving at time 11/10, i.e. with network delay 1/10 relative to the
cadence `t 0 + n · d` set by the first frame — a delay strictly below
`LATENCY_COMPENSATION = 22/100` — are scheduled at starts 22/100 and
132/100, which are 11/10 apart rather than exactly one frame duration: a
delay below the latency compensation does not give gap-free spacing, because
a late frame re-anchors at `currentTime + LATENCY_COMPENSATION`. -/
theorem play24k_delay_below_latency_gap :
    (0 : ℚ) + 1 * 1 + 1/10 = 11/10 ∧
    (1/10 : ℚ) < LATENCY_COMPENSATION ∧
    runSched initSched [(0, 1), (11/10, 1)] = [22/100, 132/100] ∧
    (132/100 : ℚ) - 22/100 ≠ 1 := by
  refine ⟨by norm_num, by norm_num [LATENCY_COMPENSATION], ?_, by norm_num⟩
  norm_num [runSched, play24kAudio, initSched, LATENCY_COMPENSATION, max_def]

/-- C1 (amended): every scheduled frame starts at
`startTime = max(currentClockTime + latencyCompensation, nextStartTime)` and
afterwards `nextStartTime = startTime + frameDuration`; the `nextStartTime`
after scheduling frame `n` is at least the scheduled end time of frame
`n - 1` (the incoming `nextStartTime`); and when every frame `n` arrives no
later than `n` frame-durations after the first frame — i.e. with no excess
network delay over the cadence set by the first arrival; delay merely below
`latencyCompensation` does not suffice — the scheduled start times are
`t 0 + latencyCompensation + n · d`: strictly increasing and exactly one
frame duration apart, with no gap and no overlap. -/
theorem play24k_schedule_invariants :
    (∀ (st : SchedState) (now dur : ℚ), st.initialized = true →
      (play24kAudio st now dur).1
          = max (now + LATENCY_COMPENSATION) st.nextStartTime ∧
      (play24kAudio st now dur).2.nextStartTime
          = (play24kAudio st now dur).1 + dur) ∧
    (∀ (st : SchedState) (now dur : ℚ), st.initialized = true → 0 ≤ dur →
      st.nextStartTime ≤ (play24kAudio st now dur).2.nextStartTime) ∧
    (∀ (t : ℕ → ℚ) (d : ℚ), 0 < d → (∀ n : ℕ, t n ≤ t 0 + n * d) →
      ∀ n : ℕ,
        (schedRun t d n).1 = t 0 + LATENCY_COMPENSATION + n * d ∧
        (schedRun t d (n + 1)).1 - (schedRun t d n).1 = d ∧
        (schedRun t d n).1 < (schedRun t d (n + 1)).1) := by
  refine ⟨?_, ?_, ?_⟩
  · intro st now dur hinit
    simp only [play24kAudio, hinit, if_true]
    constructor <;> trivial
  · intro st now dur hinit hdur
    simp only [play24kAudio, hinit, if_true]
    have h := le_max_right (now + LATENCY_COMPENSATION) st.nextStartTime
    linarith
  · intro t d hd ht n
    obtain ⟨h1, -⟩ := schedRun_closed t d ht n
    obtain ⟨h2, -⟩ := schedRun_closed t d ht (n + 1)
    refine ⟨h1, ?_, ?_⟩
    · rw [h1, h2]
      push_cast
      ring
    · rw [h1, h2]
      push_cast
      nlinarith

/-- Witness for `play24k_schedule_invariants`: frames of duration 1 arriving
exactly on the cadence `t n = n`, and one explicit initialized state. -/
theorem play24k_schedule_invariants_witness :
    ((⟨true, 5⟩ : SchedState).initialized = true ∧
      (play24kAudio ⟨true, 5⟩ 0 1).1
        = max ((0 : ℚ) + LATENCY_COMPENSATION) (⟨true, 5⟩ : SchedState).nextStartTime) ∧
    ((0 : ℚ) < 1 ∧ ∀ n : ℕ, (fun k : ℕ => (k : ℚ)) n ≤ (fun k : ℕ => (k : ℚ)) 0 + n * 1) ∧
    (schedRun (fun k : ℕ => (k : ℚ)) 1 2).1
        = (fun k : ℕ => (k : ℚ)) 0 + LATENCY_COMPENSATION + (2 : ℕ) * 1 ∧
    (schedRun (fun k : ℕ => (k : ℚ)) 1 1).1 < (schedRun (fun k : ℕ => (k : ℚ)) 1 2).1 := by
  have hht : ∀ n : ℕ, (fun k : ℕ => (k : ℚ)) n ≤ (fun k : ℕ => (k : ℚ)) 0 + n * 1 := by
    intro n
    simp
  obtain ⟨p1, p2, p3⟩ := play24k_schedule_invariants
  obtain ⟨q1, -, q3⟩ := p3 (fun k : ℕ => (k : ℚ)) 1 (by norm_num) hht 2
  obtain ⟨-, -, r3⟩ := p3 (fun k : ℕ => (k : ℚ)) 1 (by norm_num) hht 1
  exact ⟨⟨rfl, (p1 ⟨true, 5⟩ 0 1 rfl).1⟩, ⟨by norm_num, hht⟩, q1, r3⟩

/-! ## Session start: the collaborator-fetch phase

`initialize` (SimliLiveGemini.tsx and part_002) fetches the Simli session
token and the ICE-server list.  A non-ok token response throws (`throw new`
with "Failed to get Simli token"), aborting initialization; a non-ok ICE
response is absorbed by the ternary fallback
`[{urls: ["stun:stun.l.google.com:19302"]}]` and initialization continues.
`initSimli` (SimliAvatar, part_000) throws on either non-ok response. -/

structure FetchResp where
  ok : Bool
  body : String
  deriving DecidableEq, Repr

def fallbackIceServers : String := "stun:stun.l.google.com:19302"

/-- Token/ICE fetch phase of `initialize`: abort on token failure, fall back
on ICE failure. -/
def initializeFetches (tokenResp iceResp : FetchResp) :
    Except String (String × String) :=
  if tokenResp.ok then
    Except.ok (tokenResp.body,
      if iceResp.ok then iceResp.body else fallbackIceServers)
  else
    Except.error "Failed to get Simli token"

/-- Token/ICE fetch phase of `initSimli`: abort on either failure. -/
def initSimliFetches (sessionRes iceRes : FetchResp) :
    Except String (String × String) :=
  if sessionRes.ok then
    if iceRes.ok then
      Except.ok (sessionRes.body, iceRes.body)
    else
      Except.error "ICE fetch failed"
  else
    Except.error "Session fetch failed"

/-- C6 counterexample: in `initialize`, a non-success ICE-server fetch does
not abort session start — initialization proceeds with the fallback Google
STUN server list, contradicting the claim that every collaborator-fetch
failure propagates up and aborts. -/
theorem ice_failure_fallback_not_abort :
    initializeFetches ⟨true, "tok"⟩ ⟨false, "http 500"⟩
      = Except.ok ("tok", fallbackIceServers) ∧
    (initializeFetches ⟨true, "tok"⟩ ⟨false, "http 500"⟩).isOk = true := by
  constructor <;> rfl

/-- C6 (amended): a non-success token/credential fetch always aborts session
start with a descriptive error and no retry, in both variants; in the
`initSimli` variant a non-success ICE fetch also aborts; but in the
`initialize` variant a non-success ICE fetch is absorbed by the fallback
STUN server list and session start continues. -/
theorem session_start_abort_policy (t i : FetchResp) :
    (t.ok = false →
      initializeFetches t i = Except.error "Failed to get Simli token") ∧
    (t.ok = false →
      initSimliFetches t i = Except.error "Session fetch failed") ∧
    (t.ok = true → i.ok = false →
      initSimliFetches t i = Except.error "ICE fetch failed") ∧
    (t.ok = true → i.ok = false →
      initializeFetches t i = Except.ok (t.body, fallbackIceServers)) ∧
    (t.ok = true → i.ok = true →
      initializeFetches t i = Except.ok (t.body, i.body) ∧
      initSimliFetches t i = Except.ok (t.body, i.body)) := by
  rcases t with ⟨tok, tb⟩
  rcases i with ⟨iok, ib⟩
  cases tok <;> cases iok <;>
    simp [initializeFetches, initSimliFetches]

/-- Witness for `session_start_abort_policy` at a concrete failed token
fetch and a concrete failed ICE fetch. -/
theorem session_start_abort_policy_witness :
    ((⟨false, "denied"⟩ : FetchResp).ok = false ∧
      initializeFetches ⟨false, "denied"⟩ ⟨true, "ice"⟩
        = Except.error "Failed to get Simli token" ∧
      initSimliFetches ⟨false, "denied"⟩ ⟨true, "ice"⟩
        = Except.error "Session fetch failed") ∧
    ((⟨true, "tok"⟩ : FetchResp).ok = true ∧ (⟨false, "x"⟩ : FetchResp).ok = false ∧
      initSimliFetches ⟨true, "tok"⟩ ⟨false, "x"⟩
        = Except.error "ICE fetch failed" ∧
      initializeFetches ⟨true, "tok"⟩ ⟨false, "x"⟩
        = Except.ok ("tok", fallbackIceServers)) := by
  obtain ⟨a1, a2, -, -, -⟩ := session_start_abort_policy ⟨false, "denied"⟩ ⟨true, "ice"⟩
  obtain ⟨-, -, b3, b4, -⟩ := session_start_abort_policy ⟨true, "tok"⟩ ⟨false, "x"⟩
  exact ⟨⟨rfl, a1 rfl, a2 rfl⟩, ⟨rfl, rfl, b3 rfl rfl, b4 rfl rfl⟩⟩

/-! ## Inbound message demultiplexer

The tsx `ws.onmessage` classifies the parsed payload: an `error` field is
surfaced via `setError` and the handler returns before any other check; a
`serverContent.modelTurn.parts` array is iterated in order, text parts
coalescing into the transcript and `audio/pcm` inline-data parts being
downsampled and pushed to the Simli client.  The part_002 `ws.onmessage` has
no error branch at all: it routes `toolCall.functionCalls`, then finds the
first `audio/pcm` part, pushes it to Simli and (with `DUAL_PIPELINE`) to the
24 kHz local playback path. -/

inductive MsgPart where
  | text (s : String)
  | inlineAudio (mime : String) (data : List ℤ)
  | otherPart
  deriving DecidableEq, Repr

structure InboundMsg where
  error : Option String
  toolCalls : Option (List FunctionCall)
  parts : List MsgPart
  deriving DecidableEq, Repr

def audioPcmMime : String := "audio/pcm"

def partIsAudio (p : MsgPart) : Bool :=
  match p with
  | MsgPart.inlineAudio mime _ => mime.startsWith audioPcmMime
  | _ => false

structure TsxEffects where
  errorSet : Option String
  chat : List Turn
  audioToSimli : List (List ℤ)
  deriving DecidableEq, Repr

/-- The tsx `ws.onmessage` body: error branch first (surface and return),
otherwise iterate the parts in order, coalescing text into the transcript
and sending downsampled `audio/pcm` data to the avatar client.  This handler
routes no tool calls. -/
def onmessageTsx (hist : List Turn) (m : InboundMsg) : TsxEffects :=
  match m.error with
  | some e => ⟨some ("Gemini Error: " ++ e), hist, []⟩
  | none =>
      let step := fun (acc : List Turn × List (List ℤ)) (p : MsgPart) =>
        match p with
        | MsgPart.text s => (appendAssistantText acc.1 s, acc.2)
        | MsgPart.inlineAudio mime data =>
            if mime.startsWith audioPcmMime then
              (acc.1, acc.2 ++ [downsampleTo16kLinear data])
            else acc
        | MsgPart.otherPart => acc
      let r := m.parts.foldl step (hist, [])
      ⟨none, r.1, r.2⟩

structure P2Effects where
  errorSet : Option String
  acks : List (List FunctionResponse)
  chat : List Turn
  audioToSimli : List (List ℤ)
  audioTo24k : List (List ℤ)
  deriving DecidableEq, Repr

def DUAL_PIPELINE : Bool := true

/-- The chat entry pushed for a printed concept (the formatted
`NEW CONCEPT` message built from the call arguments). -/
def conceptText (args : String) : String := "NEW CONCEPT: " ++ args

def audioDataOf : Option MsgPart → Option (List ℤ)
  | some (MsgPart.inlineAudio _ data) => some data
  | _ => none

/-- The part_002 `ws.onmessage` body: no error branch; tool calls are
answered (and surfaced to the transcript), and the first `audio/pcm` part
is downsampled for the avatar and (under `DUAL_PIPELINE`) played back at
24 kHz. -/
def onmessagePart002 (hist : List Turn) (m : InboundMsg) : P2Effects :=
  let tc : List (List FunctionResponse) × List Turn :=
    match m.toolCalls with
    | some calls =>
        ([handleToolCall calls],
          hist ++ (calls.filter (fun fc => fc.name == printAlbumConcept)).map
            (fun fc => ⟨Role.assistant, conceptText fc.args⟩))
    | none => ([], hist)
  let audio := audioDataOf (m.parts.find? partIsAudio)
  ⟨none, tc.1, tc.2,
    match audio with
    | some data => [downsampleTo16kTap data]
    | none => [],
    match audio with
    | some data => if DUAL_PIPELINE then [data] else []
    | none => []⟩

/-- C7 counterexample: the part_002 demultiplexer, given a message carrying
both an `error` field and a tool call, surfaces no error and still routes
the tool call (an acknowledgement is produced): the error field does not
short-circuit classification in that handler. -/
theorem error_field_not_shortcircuit_part002 :
    (onmessagePart002 []
      ⟨some "quota exceeded", some [⟨"c1", "print_album_concept", "a"⟩], []⟩).errorSet
        = none ∧
    (onmessagePart002 []
      ⟨some "quota exceeded", some [⟨"c1", "print_album_concept", "a"⟩], []⟩).acks
        = [[⟨"c1", "print_album_concept", "a"⟩]] := by
  constructor
  · rfl
  · simp [onmessagePart002, handleToolCall, printAlbumConcept]

/-- C7 (amended): in the SimliLiveGemini.tsx demultiplexer, a message whose
payload carries an `error` field is surfaced to error reporting and no
further classification occurs — the transcript is untouched and no audio is
handled (that handler routes no tool calls at all); the part_002 variant,
however, has no error branch: it never surfaces an inbound error, and
tool-call routing and audio handling still occur for such messages. -/
theorem error_field_shortcircuit_tsx (hist : List Turn) (m : InboundMsg)
    (e : String) (he : m.error = some e) :
    onmessageTsx hist m = ⟨some ("Gemini Error: " ++ e), hist, []⟩ ∧
    (onmessageTsx hist m).chat = hist ∧
    (onmessageTsx hist m).audioToSimli = [] ∧
    (∀ (hist2 : List Turn) (m2 : InboundMsg),
      (onmessagePart002 hist2 m2).errorSet = none) := by
  have h1 : onmessageTsx hist m = ⟨some ("Gemini Error: " ++ e), hist, []⟩ := by
    unfold onmessageTsx
    rw [he]
  exact ⟨h1, by rw [h1], by rw [h1], fun hist2 m2 => rfl⟩

/-- Witness for `error_field_shortcircuit_tsx` on a concrete error-carrying
message. -/
theorem error_field_shortcircuit_tsx_witness :
    (⟨some "boom", none, [MsgPart.text "hi"]⟩ : InboundMsg).error = some "boom" ∧
    onmessageTsx [] ⟨some "boom", none, [MsgPart.text "hi"]⟩
      = ⟨some ("Gemini Error: " ++ "boom"), [], []⟩ := by
  obtain ⟨h1, -, -, -⟩ := error_field_shortcircuit_tsx []
    ⟨some "boom", none, [MsgPart.text "hi"]⟩ "boom" rfl
  exact ⟨rfl, h1⟩

/-! ## Teardown (the `useEffect` cleanup, part_002)

The cleanup resets the initialization guard, then for each held resource —
WebSocket, Simli client, microphone tracks, capture audio context, playback
audio context — closes/stops it if the ref is non-null and nulls the ref.
`WebSocket.close()`, `SimliClient.stop()` and `MediaStreamTrack.stop()` are
no-ops on already-released objects; `AudioContext.close()` rejects with an
`InvalidStateError` on an already-closed context, but the ref-nulling makes
the step as a whole idempotent. -/

inductive ConnState where
  | connected
  | closedConn
  deriving DecidableEq, Repr

inductive CtxState where
  | running
  | closed
  deriving DecidableEq, Repr

/-- `WebSocket.close()`: never throws, also on a closed socket. -/
def wsClose (_ : ConnState) : Except String ConnState :=
  Except.ok ConnState.closedConn

/-- `SimliClient.stop()`: releases the avatar connection, idempotent. -/
def clientStop (_ : Bool) : Except String Bool :=
  Except.ok false

/-- `MediaStreamTrack.stop()`: a no-op on an already-ended track. -/
def trackStop (_ : Bool) : Except String Bool :=
  Except.ok false

/-- `AudioContext.close()`: rejects on an already-closed context. -/
def ctxClose : CtxState → Except String CtxState
  | CtxState.closed => Except.error "InvalidStateError"
  | CtxState.running => Except.ok CtxState.closed

structure SessionSt where
  wsConn : Option ConnState
  simli : Option Bool
  tracks : Option (List Bool)
  audioCtx : Option CtxState
  playbackCtx : Option CtxState
  isInitializing : Bool
  deriving DecidableEq, Repr

def cleanupWs (st : SessionSt) : Except String SessionSt :=
  match st.wsConn with
  | some c => (wsClose c).map (fun _ => { st with wsConn := none })
  | none => Except.ok st

def cleanupSimli (st : SessionSt) : Except String SessionSt :=
  match st.simli with
  | some c => (clientStop c).map (fun _ => { st with simli := none })
  | none => Except.ok st

def cleanupTracks (st : SessionSt) : Except String SessionSt :=
  match st.tracks with
  | some ts => (ts.mapM trackStop).map (fun _ => { st with tracks := none })
  | none => Except.ok st

def cleanupAudioCtx (st : SessionSt) : Except String SessionSt :=
  match st.audioCtx with
  | some c => (ctxClose c).map (fun _ => { st with audioCtx := none })
  | none => Except.ok st

def cleanupPlaybackCtx (st : SessionSt) : Except String SessionSt :=
  match st.playbackCtx with
  | some c => (ctxClose c).map (fun _ => { st with playbackCtx := none })
  | none => Except.ok st

/-- The full cleanup sequence, in source order: reset the reentrancy guard,
close the WebSocket, stop the Simli client, stop the microphone tracks,
close the capture context, close the playback context. -/
def cleanup (st : SessionSt) : Except String SessionSt := do
  let st1 := { st with isInitializing := false }
  let st2 ← cleanupWs st1
  let st3 ← cleanupSimli st2
  let st4 ← cleanupTracks st3
  let st5 ← cleanupAudioCtx st4
  cleanupPlaybackCtx st5

/-- The fully-released session state: all refs null, guard reset. -/
def closedSession : SessionSt := ⟨none, none, none, none, none, false⟩

def SessionClosed (st : SessionSt) : Prop :=
  st.wsConn = none ∧ st.simli = none ∧ st.tracks = none ∧
  st.audioCtx = none ∧ st.playbackCtx = none ∧ st.isInitializing = false

/-! ### Teardown helper lemmas -/

theorem mapM_trackStop (ts : List Bool) :
    ts.mapM trackStop = Except.ok (ts.map (fun _ => false)) := by
  induction ts with
  | nil => rfl
  | cons t ts ih =>
      simp only [List.mapM_cons, trackStop, ih]
      rfl

theorem cleanupWs_eq (s : SessionSt) :
    cleanupWs s = Except.ok { s with wsConn := none } := by
  rcases s with ⟨w, si, tr, a, p, ii⟩
  cases w <;> rfl

theorem cleanupSimli_eq (s : SessionSt) :
    cleanupSimli s = Except.ok { s with simli := none } := by
  rcases s with ⟨w, si, tr, a, p, ii⟩
  cases si <;> rfl

theorem cleanupTracks_eq (s : SessionSt) :
    cleanupTracks s = Except.ok { s with tracks := none } := by
  rcases s with ⟨w, si, tr, a, p, ii⟩
  cases tr with
  | none => rfl
  | some ts =>
      simp only [cleanupTracks, mapM_trackStop]
      rfl

theorem cleanupAudioCtx_eq (s : SessionSt) (h : s.audioCtx ≠ some CtxState.closed) :
    cleanupAudioCtx s = Except.ok { s with audioCtx := none } := by
  rcases s with ⟨w, si, tr, a, p, ii⟩
  rcases a with - | c
  · rfl
  · cases c
    · rfl
    · exact absurd rfl h

theorem cleanupPlaybackCtx_eq (s : SessionSt) (h : s.playbackCtx ≠ some CtxState.closed) :
    cleanupPlaybackCtx s = Except.ok { s with playbackCtx := none } := by
  rcases s with ⟨w, si, tr, a, p, ii⟩
  rcases p with - | c
  · rfl
  · cases c
    · rfl
    · exact absurd rfl h

theorem except_bind_ok {α β : Type} (a : α) (f : α → Except String β) :
    (Except.ok a >>= f) = f a := rfl

/-- C8 (confirmed, under the reachable-state hypothesis that a non-null
audio-context ref is not already closed — the component closes a context
only while nulling its ref): the teardown sequence never throws, leaves the
session fully released (`Closed`), running it a second time never throws and
is a no-op, and each release step is independently idempotent (re-running a
step on the state it produced returns that state unchanged). -/
theorem teardown_idempotent (st : SessionSt)
    (ha : st.audioCtx ≠ some CtxState.closed)
    (hp : st.playbackCtx ≠ some CtxState.closed) :
    cleanup st = Except.ok closedSession ∧
    SessionClosed closedSession ∧
    cleanup closedSession = Except.ok closedSession ∧
    (∀ s r : SessionSt, cleanupWs s = Except.ok r → cleanupWs r = Except.ok r) ∧
    (∀ s r : SessionSt, cleanupSimli s = Except.ok r → cleanupSimli r = Except.ok r) ∧
    (∀ s r : SessionSt, cleanupTracks s = Except.ok r → cleanupTracks r = Except.ok r) ∧
    (∀ s r : SessionSt, cleanupAudioCtx s = Except.ok r → cleanupAudioCtx r = Except.ok r) ∧
    (∀ s r : SessionSt, cleanupPlaybackCtx s = Except.ok r → cleanupPlaybackCtx r = Except.ok r) := by
  refine ⟨?_, ⟨rfl, rfl, rfl, rfl, rfl, rfl⟩, rfl, ?_, ?_, ?_, ?_, ?_⟩
  · rcases st with ⟨w, si, tr, a, p, ii⟩
    show (cleanupWs ⟨w, si, tr, a, p, false⟩ >>= fun s2 =>
      cleanupSimli s2 >>= fun s3 =>
      cleanupTracks s3 >>= fun s4 =>
      cleanupAudioCtx s4 >>= fun s5 =>
      cleanupPlaybackCtx s5) = Except.ok closedSession
    rw [cleanupWs_eq, except_bind_ok, cleanupSimli_eq, except_bind_ok,
      cleanupTracks_eq, except_bind_ok,
      cleanupAudioCtx_eq _ (by simpa using ha), except_bind_ok,
      cleanupPlaybackCtx_eq _ (by simpa using hp)]
    rfl
  · intro s r h
    rw [cleanupWs_eq] at h
    cases h
    rw [cleanupWs_eq]
  · intro s r h
    rw [cleanupSimli_eq] at h
    cases h
    rw [cleanupSimli_eq]
  · intro s r h
    rw [cleanupTracks_eq] at h
    cases h
    rw [cleanupTracks_eq]
  · intro s r h
    rcases s with ⟨w, si, tr, a, p, ii⟩
    rcases a with - | c
    · simp only [cleanupAudioCtx] at h
      cases h
      rfl
    · cases c
      · simp only [cleanupAudioCtx, ctxClose, Except.map] at h
        cases h
        rfl
      · simp only [cleanupAudioCtx, ctxClose, Except.map] at h
        exact absurd h (by simp)
  · intro s r h
    rcases s with ⟨w, si, tr, a, p, ii⟩
    rcases p with - | c
    · simp only [cleanupPlaybackCtx] at h
      cases h
      rfl
    · cases c
      · simp only [cleanupPlaybackCtx, ctxClose, Except.map] at h
        cases h
        rfl
      · simp only [cleanupPlaybackCtx, ctxClose, Except.map] at h
        exact absurd h (by simp)

/-- Witness for `teardown_idempotent` at a concrete fully-live session
state. -/
theorem teardown_idempotent_witness :
    ((⟨some ConnState.connected, some true, some [true, false],
        some CtxState.running, some CtxState.running, true⟩ : SessionSt).audioCtx
      ≠ some CtxState.closed) ∧
    cleanup ⟨some ConnState.connected, some true, some [true, false],
        some CtxState.running, some CtxState.running, true⟩
      = Except.ok closedSession ∧
    SessionClosed closedSession ∧
    cleanup closedSession = Except.ok closedSession := by
  obtain ⟨h1, h2, h3, -⟩ := teardown_idempotent
    ⟨some ConnState.connected, some true, some [true, false],
      some CtxState.running, some CtxState.running, true⟩
    (by decide) (by decide)
  exact ⟨by decide, h1, h2, h3⟩

/-! ## Base64 codec (`arrayBufferToBase64` / `base64ToUint8Array`)

`arrayBufferToBase64` turns the byte buffer into a latin1 binary string with
`String.fromCharCode` and applies `window.btoa`; `base64ToUint8Array`
applies `window.atob` and reads the code units back with `charCodeAt`.
Since `fromCharCode`/`charCodeAt` are mutually inverse below 256, the
composite maps byte values directly through standard base64 with `=`
padding, modelled here on `List ℕ` byte values. -/

def b64Alphabet : List Char :=
  "ABCDEFGHIJKLMNOPQRSTUVWXYZabcdefghijklmnopqrstuvwxyz0123456789+/".toList

def b64EncChar (n : ℕ) : Char := b64Alphabet.getD n '='

def b64DecVal (c : Char) : ℕ := b64Alphabet.indexOf c

/-- `window.btoa` on a latin1 string, acting on the byte values: groups of
three bytes become four alphabet characters; a trailing group of one or two
bytes is padded with `=`. -/
def btoa : List ℕ → List Char
  | [] => []
  | [a] => [b64EncChar (a / 4), b64EncChar (a % 4 * 16), '=', '=']
  | [a, b] => [b64EncChar (a / 4), b64EncChar (a % 4 * 16 + b / 16),
      b64EncChar (b % 16 * 4), '=']
  | a :: b :: c :: rest =>
      b64EncChar (a / 4) :: b64EncChar (a % 4 * 16 + b / 16)
        :: b64EncChar (b % 16 * 4 + c / 64) :: b64EncChar (c % 64) :: btoa rest

/-- `window.atob`: each group of four characters yields three bytes, or one
or two bytes when `=`-padded. -/
def atob : List Char → List ℕ
  | c1 :: c2 :: c3 :: c4 :: rest =>
      let v1 := b64DecVal c1
      let v2 := b64DecVal c2
      if c3 = '=' then [v1 * 4 + v2 / 16]
      else
        let v3 := b64DecVal c3
        if c4 = '=' then [v1 * 4 + v2 / 16, v2 % 16 * 16 + v3 / 4]
        else (v1 * 4 + v2 / 16) :: (v2 % 16 * 16 + v3 / 4)
          :: (v3 % 4 * 64 + b64DecVal c4) :: atob rest
  | _ => []

/-- `arrayBufferToBase64` on a byte buffer. -/
def arrayBufferToBase64 (bytes : List ℕ) : List Char := btoa bytes

/-- `base64ToUint8Array` on a base64 character string. -/
def base64ToUint8Array (s : List Char) : List ℕ := atob s

/-! ### Base64 helper lemmas -/

theorem b64DecVal_enc : ∀ n < 64, b64DecVal (b64EncChar n) = n := by decide

theorem b64EncChar_ne_pad : ∀ n < 64, b64EncChar n ≠ '=' := by decide

theorem atob_btoa : ∀ l : List ℕ, (∀ b ∈ l, b < 256) → atob (btoa l) = l
  | [], _ => rfl
  | [a], h => by
      have ha : a < 256 := h a (by simp)
      have d1 := b64DecVal_enc (a / 4) (by omega)
      have d2 := b64DecVal_enc (a % 4 * 16) (by omega)
      simp only [btoa, atob, d1, d2, if_pos rfl, if_true, List.cons.injEq, and_true]
      omega
  | [a, b], h => by
      have ha : a < 256 := h a (by simp)
      have hb : b < 256 := h b (by simp)
      have d1 := b64DecVal_enc (a / 4) (by omega)
      have d2 := b64DecVal_enc (a % 4 * 16 + b / 16) (by omega)
      have d3 := b64DecVal_enc (b % 16 * 4) (by omega)
      have hne := b64EncChar_ne_pad (b % 16 * 4) (by omega)
      simp only [btoa, atob, d1, d2, d3, if_neg hne, if_pos rfl, if_true,
        List.cons.injEq, and_true]
      omega
  | a :: b :: c :: rest, h => by
      have ha : a < 256 := h a (by simp)
      have hb : b < 256 := h b (by simp)
      have hc : c < 256 := h c (by simp)
      have ih := atob_btoa rest (fun x hx => h x (by simp [hx]))
      have d1 := b64DecVal_enc (a / 4) (by omega)
      have d2 := b64DecVal_enc (a % 4 * 16 + b / 16) (by omega)
      have d3 := b64DecVal_enc (b % 16 * 4 + c / 64) (by omega)
      have d4 := b64DecVal_enc (c % 64) (by omega)
      have hne3 := b64EncChar_ne_pad (b % 16 * 4 + c / 64) (by omega)
      have hne4 := b64EncChar_ne_pad (c % 64) (by omega)
      simp only [btoa, atob, d1, d2, d3, d4, if_neg hne3, if_neg hne4, if_true, ih,
        List.cons.injEq, and_true]
      omega

/-- C9: decoding the string produced by the byte-to-base64 encoder returns
exactly the original bytes — `base64ToUint8Array` composed with
`arrayBufferToBase64` is the identity on arbitrary byte buffers (every byte
value below 256, including non-printable bytes and bytes with the highest
bit set). -/
theorem base64_roundtrip (l : List ℕ) (hl : ∀ b ∈ l, b < 256) :
    base64ToUint8Array (arrayBufferToBase64 l) = l :=
  atob_btoa l hl

/-- Witness for `base64_roundtrip` on a concrete buffer containing a NUL
byte, high-bit-set bytes, and a control byte. -/
theorem base64_roundtrip_witness :
    (∀ b ∈ [0, 255, 128, 7, 200], b < 256) ∧
    base64ToUint8Array (arrayBufferToBase64 [0, 255, 128, 7, 200])
      = [0, 255, 128, 7, 200] :=
  ⟨by decide, base64_roundtrip [0, 255, 128, 7, 200] (by decide)⟩
